import Mathlib

/-!
Verification development for the `edge-srt-to-speech` pipeline
(`src/edge_srt_to_speech/__main__.py`).

The Python source is shallowly embedded: pure fragments become Lean
functions, Python floats describing media durations become exact
rationals (`ℚ`), Python strings become `List Char`, and Python
exceptions become an explicit `Except PyExc` result.  Each definition
is annotated with the source lines it translates.
-/

namespace EdgeSrt

/-- Python exceptions that the embedded fragments can raise. -/
inductive PyExc where
  /-- `ZeroDivisionError`, raised by `duration / length` when `length` is zero. -/
  | zeroDivisionError : PyExc
  /-- `UnboundLocalError` (a subclass of `NameError`): a local variable was
  referenced before assignment.  The payload is the variable's name. -/
  | nameError (varName : List Char) : PyExc
  /-- `IndexError`, raised by `srt_data[-1]` on an empty sequence. -/
  | indexError : PyExc
  /-- `Exception("parallel-batch-size must be greater than 0")`, line 356. -/
  | batchSizeError : PyExc
deriving DecidableEq

/-- A pysrt `SubRipTime` value: the four stored fields of a timestamp. -/
structure SubRipTime where
  hours : Int
  minutes : Int
  seconds : Int
  milliseconds : Int
deriving DecidableEq

/-- A pysrt `SubRipItem`: one subtitle cue.  pysrt's `end` field is named
`stop` here because `end` is a Lean keyword. -/
structure SubRipItem where
  start : SubRipTime
  stop : SubRipTime
  text : List Char
deriving DecidableEq

/-- `pysrttime_to_seconds` (lines 37-38):
`(t.hours * 60 + t.minutes) * 60 + t.seconds + t.milliseconds / 1000`. -/
def pysrttime_to_seconds (t : SubRipTime) : ℚ :=
  (((t.hours * 60 + t.minutes) * 60 + t.seconds : Int) : ℚ) + (t.milliseconds : ℚ) / 1000

/-- The seconds value of `srt_data[i].duration` (line 230): pysrt stores
timestamps as an ordinal number of milliseconds, so the duration converts
exactly to `end - start` in seconds. -/
def duration_seconds (c : SubRipItem) : ℚ :=
  pysrttime_to_seconds c.stop - pysrttime_to_seconds c.start

/-- `parse_srt` (lines 32-34): returns `pysrt.open`'s cue sequence as is.
No validation of any kind is performed on the cues. -/
def parse_srt (subs : List SubRipItem) : List SubRipItem := subs

/-- Loading the timeline (line 343 `srt_data = parse_srt(args.srt_file)`):
the repository performs no check between parsing and use, so loading
always succeeds, whatever the cue contents. -/
def loadTimeline (subs : List SubRipItem) : Except PyExc (List SubRipItem) :=
  .ok (parse_srt subs)

/-- `max_duration = pysrttime_to_seconds(srt_data[-1].end)` (line 208).
`srt_data[-1]` raises `IndexError` on an empty sequence. -/
def maxDurationOf (srtData : List SubRipItem) : Except PyExc ℚ :=
  match srtData.getLast? with
  | some item => .ok (pysrttime_to_seconds item.stop)
  | none => .error .indexError

/-- What `ensure_audio_length` (lines 70-94) does with the clip: either the
ffmpeg `atempo` filter is invoked with the given factor (lines 77-92), or
the file is copied through unchanged by `shutil.copyfile` (line 94). -/
inductive TempoAction where
  | transform (factor : ℚ) : TempoAction
  | copyThrough : TempoAction
deriving DecidableEq

/-- The clamping of `atempo` in `ensure_audio_length` (lines 72-76):
`if atempo < 0.5: atempo = 0.5` / `elif atempo > 100: atempo = 100`. -/
def clampAtempo (atempo : ℚ) : ℚ :=
  if atempo < 1/2 then 1/2 else if atempo > 100 then 100 else atempo

/-- `ensure_audio_length(in_file, out_file, length)` (lines 70-94).
`duration` is the probed natural duration of `in_file` (line 71) and
`length` the cue's target duration.  Python float division by zero raises
`ZeroDivisionError` (line 72). -/
def ensure_audio_length (duration length : ℚ) : Except PyExc TempoAction :=
  if length = 0 then .error .zeroDivisionError
  else
    let atempo := clampAtempo (duration / length)
    if atempo > 1 then .ok (.transform atempo) else .ok .copyThrough

/-- The finalization of one synthesized clip in `audio_gen` (lines 181-189):
either the duration-reconciliation path (probe plus possible tempo
transform, `ensure_audio_length`) or a generated silence clip of the cue's
target duration (`silence_gen(fname, duration)`). -/
inductive ClipStep where
  | reconcile (act : TempoAction) : ClipStep
  | silence (duration : ℚ) : ClipStep
deriving DecidableEq

/-- Lines 181-189 of `audio_gen`: `if file_length > 0:` run
`ensure_audio_length` on the clip, `else:` generate silence of exactly the
target duration. -/
def finalizeClip (fileLength : Nat) (naturalDuration targetDuration : ℚ) :
    Except PyExc ClipStep :=
  if fileLength > 0 then (ensure_audio_length naturalDuration targetDuration).map .reconcile
  else .ok (.silence targetDuration)

/-! Python string primitives used by `audio_gen` (lines 131-146), modelled
over `List Char`. -/

/-- Python `s.split(sep)` for a one-character separator: splitting never
returns an empty list, and splitting the empty string yields `[""]`. -/
def pySplit (sep : Char) : List Char → List (List Char)
  | [] => [[]]
  | c :: cs =>
    if c = sep then [] :: pySplit sep cs
    else
      match pySplit sep cs with
      | [] => [[c]]
      | p :: ps => (c :: p) :: ps

/-- Python `sep.join(parts)` for a one-character separator. -/
def pyJoin (sep : Char) : List (List Char) → List Char
  | [] => []
  | [p] => p
  | p :: q :: rest => p ++ sep :: pyJoin sep (q :: rest)

/-- The newline character on which `audio_gen` splits cue text. -/
def nlChar : Char := '\n'

/-- The space character used by `" ".join` on line 146. -/
def spChar : Char := ' '

/-- The reserved directive opener `"edge_tts{"` (line 133). -/
def edgeTag : List Char := "edge_tts\x7b".toList

/-- The closing delimiter `"}"` (line 133). -/
def closeBrace : List Char := "\x7d".toList

/-- The fixed allowed directive keys of line 139, in source order. -/
def allowedKeys : List (List Char) :=
  ["rate".toList, "pitch".toList, "volume".toList, "voice".toList]

/-- Python dict assignment `d[k] = v` on an association list: replace the
value of an existing key in place, otherwise append the new binding. -/
def pyDictInsert : List (List Char × List Char) → List Char → List Char →
    List (List Char × List Char)
  | [], k, v => [(k, v)]
  | p :: rest, k, v => if p.1 = k then (k, v) :: rest else p :: pyDictInsert rest k v

/-- Python dict lookup `d[k]` on an association list (first matching key). -/
def pyDictGet : List (List Char × List Char) → List Char → Option (List Char)
  | [], _ => none
  | p :: rest, k => if p.1 = k then some p.2 else pyDictGet rest k

/-- The dict comprehension on line 137, `{k: v for k, v in pairs}`: build a
dict left to right, later bindings for the same key overwriting earlier
ones. -/
def pyDictOfPairs (pairs : List (List Char × List Char)) :
    List (List Char × List Char) :=
  pairs.foldl (fun d p => pyDictInsert d p.1 p.2) []

/-- The unpacking `{k: v for k, v in [x.split(":") for x in text_]}` on
line 137: every comma-separated token must split on `":"` into exactly two
parts, otherwise a `ValueError` is raised (`none`). -/
def parsePairs (toks : List (List Char)) : Option (List (List Char × List Char)) :=
  toks.mapM fun tok =>
    match pySplit ':' tok with
    | [k, v] => some (k, v)
    | _ => none

/-- The override loop of lines 141-142: `for k, v in text_.items(): arg[k] = v`. -/
def applyDirective (arg : List (List Char × List Char))
    (d : List (List Char × List Char)) : List (List Char × List Char) :=
  d.foldl (fun a p => pyDictInsert a p.1 p.2) arg

/-- Lines 132-145 of `audio_gen`: the enhanced-srt inspection of the final
text line.  `none` models the uncaught `Exception("edge_tts{} is invalid")`
of line 140 (it is not a `ValueError`, so the handler on line 143 does not
catch it).  A `ValueError` during pair unpacking is caught and leaves the
overrides empty, but the directive line is still stripped (line 145). -/
def directiveStep (ssmlVariables : List (List Char))
    (arg : List (List Char × List Char)) (text : List Char) :
    Option (List (List Char × List Char) × List Char) :=
  let lines := pySplit nlChar text
  let lastLine := lines.getLastD []
  if edgeTag.isPrefixOf lastLine && closeBrace.isSuffixOf lastLine then
    let stripped := pyJoin nlChar lines.dropLast
    match parsePairs (pySplit ',' ((lastLine.drop edgeTag.length).dropLast)) with
    | none => some (arg, stripped)
    | some pairs =>
      let d := pyDictOfPairs pairs
      if d.all (fun p => decide (p.1 ∈ allowedKeys ++ ssmlVariables)) then
        some (applyDirective arg d, stripped)
      else none
  else some (arg, text)

/-- The outcome of the text-processing prefix of `audio_gen`:
`fatal` models the job aborting with the uncaught exception of line 140. -/
inductive ProcessResult where
  | fatal : ProcessResult
  | ok (arg : List (List Char × List Char)) (text : List Char) : ProcessResult
deriving DecidableEq

/-- Lines 131-146 of `audio_gen`: optional directive handling followed by
the unconditional line-break collapse `text = " ".join(text.split("\n"))`. -/
def processCueText (enhancedSrt : Bool) (ssmlVariables : List (List Char))
    (arg : List (List Char × List Char)) (text : List Char) : ProcessResult :=
  match (if enhancedSrt then directiveStep ssmlVariables arg text else some (arg, text)) with
  | none => .fatal
  | some (arg2, t) => .ok arg2 (pyJoin spChar (pySplit nlChar t))

/-- Whether a text's final line matches the directive pattern of line 133
(`startswith("edge_tts{") and endswith("}")`). -/
def directiveMatch (text : List Char) : Bool :=
  let lastLine := (pySplit nlChar text).getLastD []
  edgeTag.isPrefixOf lastLine && closeBrace.isSuffixOf lastLine

/-! The retry loop of `audio_gen` (lines 120, 152-179). -/

/-- The outcome of the synthesis `while True` loop: success after some
number of retries, or the uncaught `Exception(f"Too many retries for
{fname}")` of line 170.  Each recorded delay is the argument of
`asyncio.sleep` on line 176.  `fuelOut` is unreachable for the fuel used
by `audio_gen_retry`. -/
inductive SynthOutcome where
  | success (retries : Nat) (delays : List Nat) : SynthOutcome
  | exhausted (fname : List Char) (delays : List Nat) : SynthOutcome
  | fuelOut : SynthOutcome
deriving DecidableEq

/-- One unrolling of the `while True` loop, with `rc` the current value of
`retry_count` (which also indexes the attempt being made).  `succeeds a`
tells whether attempt number `a` of `communicate.run` completes without
raising, and `jitter k` models `random.randint(1, 5)` drawn before retry
number `k`.  On failure: if `retry_count > 5` raise (line 169-170), else
increment `retry_count` and sleep `retry_count + random.randint(1, 5)`
seconds (lines 172-176). -/
def audioGenLoop (fname : List Char) (succeeds : Nat → Bool) (jitter : Nat → Nat) :
    Nat → Nat → SynthOutcome
  | 0, _ => .fuelOut
  | fuel + 1, rc =>
    if succeeds rc then .success rc []
    else if rc > 5 then .exhausted fname []
    else
      match audioGenLoop fname succeeds jitter fuel (rc + 1) with
      | .success r ds => .success r ((rc + 1 + jitter (rc + 1)) :: ds)
      | .exhausted f ds => .exhausted f ((rc + 1 + jitter (rc + 1)) :: ds)
      | .fuelOut => .fuelOut

/-- The full retry loop, started with `retry_count = 0` (line 120).  Fuel 8
covers every reachable iteration (`retry_count` never exceeds 6). -/
def audio_gen_retry (fname : List Char) (succeeds : Nat → Bool) (jitter : Nat → Nat) :
    SynthOutcome :=
  audioGenLoop fname succeeds jitter 8 0

/-! The gap filler and assembler of `_main` (lines 268-291). -/

/-- An entry of the concatenation manifest: a generated silence clip or one
cue's finalized speech clip, with its measured duration. -/
inductive ClipRef where
  | silence (dur : ℚ) : ClipRef
  | speech (dur : ℚ) : ClipRef
deriving DecidableEq

/-- The measured duration of a manifest entry. -/
def ClipRef.dur : ClipRef → ℚ
  | .silence d => d
  | .speech d => d

/-- The tolerance `0.0001` of line 274. -/
def tol : ℚ := 1 / 10000

/-- The loop of lines 269-282.  Each item is `((start, end), dur)`:
the cue's `input_files_start_end` entry and the measured duration
(`get_duration`) of its finalized clip.  `lastEnd` is the running clock.
Probing a generated silence clip (line 278) is modelled as returning
exactly the requested duration, so inserting a gap advances the clock to
the cue's start. -/
def gapLoop : List ((ℚ × ℚ) × ℚ) → ℚ → List ClipRef × ℚ
  | [], lastEnd => ([], lastEnd)
  | ((start, _), dur) :: rest, lastEnd =>
    let needed := start - lastEnd
    if needed > tol then
      let next := gapLoop rest (start + dur)
      (ClipRef.silence needed :: ClipRef.speech dur :: next.1, next.2)
    else
      let next := gapLoop rest (lastEnd + dur)
      (ClipRef.speech dur :: next.1, next.2)

/-- Lines 268-291: the gap-filling walk followed by the trailing-silence
check of lines 284-290, which compares `max_duration` against
`y = start_of_last_cue + measured_duration_of_last_clip` (not against the
running clock `last_end`). -/
def assemble (items : List ((ℚ × ℚ) × ℚ)) : List ClipRef :=
  let maxDuration := (items.getLastD ((0, 0), 0)).1.2
  let plan := (gapLoop items 0).1
  let x := (items.getLastD ((0, 0), 0)).2
  let y := (items.getLastD ((0, 0), 0)).1.1 + x
  let needed := maxDuration - y
  if needed > 0 then plan ++ [ClipRef.silence needed] else plan

/-- Modelled from the claim's words, for comparison with `assemble`: "a
trailing silence clip is appended when the last cue's end minus the clock
is positive", the trailing clip being of exactly that remainder. -/
def assembleSpec (items : List ((ℚ × ℚ) × ℚ)) : List ClipRef :=
  let maxDuration := (items.getLastD ((0, 0), 0)).1.2
  let r := gapLoop items 0
  let needed := maxDuration - r.2
  if needed > 0 then r.1 ++ [ClipRef.silence needed] else r.1

/-- The total measured duration of an assembled plan. -/
def planDuration (plan : List ClipRef) : ℚ :=
  (plan.map ClipRef.dur).sum

/-- Whether the assembled plan ends with a trailing silence clip. -/
def hasTrailingSilence (plan : List ClipRef) : Bool :=
  match plan.getLast? with
  | some (ClipRef.silence _) => true
  | _ => false

/-- Hypothesis bundle for the amended assembly claim: cues are listed in
order without overlap, each has `start ≤ end`, and each finalized clip
fits inside its cue window (`start + dur ≤ end`), with nonnegative
measured duration.  `lb` is a lower bound for the first start. -/
def sortedFit : ℚ → List ((ℚ × ℚ) × ℚ) → Bool
  | _, [] => true
  | lb, ((s, e), d) :: rest =>
    decide (lb ≤ s) && decide (s ≤ e) && decide (0 ≤ d) &&
      decide (s + d ≤ e) && sortedFit e rest

/-! The `main` entry point (lines 321-380). -/

/-- The dataflow of `main` around `ssml_template` (lines 351-377).  The
local `ssml_template` is assigned only inside `if args.ssml_template is
not None:` (lines 351-353); `batch_size < 1` raises on lines 355-356; and
the call on line 377 reads `ssml_template`, raising `UnboundLocalError`
(a `NameError`) when the option was not supplied.  `.ok` carries the
template text handed to `_main`, i.e. the run proceeds to synthesis. -/
def mainSetup (ssmlTemplateArg : Option (List Char)) (templateContents : List Char)
    (batchSize : Int) : Except PyExc (List Char) :=
  let ssml_template : Option (List Char) := ssmlTemplateArg.map fun _ => templateContents
  if batchSize < 1 then .error .batchSizeError
  else
    match ssml_template with
    | some t => .ok t
    | none => .error (.nameError "ssml_template".toList)

/-- A cue whose start (2 s) lies after its end (1 s). -/
def badCue : SubRipItem :=
  SubRipItem.mk ⟨0, 0, 2, 0⟩ ⟨0, 0, 1, 0⟩ "late".toList

/-- The list of backoff delays for retries numbered `s, s+1, ..., s+n-1`:
retry number `k` sleeps `k + jitter k` seconds (line 176, where
`retry_count` has just been incremented to `k`). -/
def delaysFrom (jitter : Nat → Nat) (s : Nat) : Nat → List Nat
  | 0 => []
  | n + 1 => (s + jitter s) :: delaysFrom jitter (s + 1) n

theorem delaysFrom_length (jitter : Nat → Nat) :
    ∀ n s, (delaysFrom jitter s n).length = n := by
  intro n
  induction n with
  | zero => intro s; rfl
  | succ n ih => intro s; simp [delaysFrom, ih]

theorem delaysFrom_getD (jitter : Nat → Nat) :
    ∀ n s i, i < n →
      (delaysFrom jitter s n).getD i 0 = (s + i) + jitter (s + i) := by
  intro n
  induction n with
  | zero => intro s i h; omega
  | succ n ih =>
    intro s i h
    cases i with
    | zero => simp [delaysFrom]
    | succ i =>
      have h2 := ih (s + 1) i (by omega)
      have he : s + 1 + i = s + (i + 1) := by omega
      simp only [delaysFrom, List.getD_cons_succ]
      rw [h2, he]

/-! Theorems. -/

/-- Characterization of the retry loop: with enough fuel it either succeeds
at the first succeeding attempt, after one backoff delay per failed
attempt, or it exhausts its retries once attempts `rc..6` have all
failed. -/
theorem audioGenLoop_spec (fname : List Char) (succeeds : Nat → Bool) (jitter : Nat → Nat) :
    ∀ fuel rc, rc ≤ 6 → 7 ≤ fuel + rc →
      (∃ r, rc ≤ r ∧ r ≤ 6 ∧ succeeds r = true ∧
        (∀ a, rc ≤ a → a < r → succeeds a = false) ∧
        audioGenLoop fname succeeds jitter fuel rc =
          .success r (delaysFrom jitter (rc + 1) (r - rc)))
    ∨ ((∀ a, rc ≤ a → a ≤ 6 → succeeds a = false) ∧
        audioGenLoop fname succeeds jitter fuel rc =
          .exhausted fname (delaysFrom jitter (rc + 1) (6 - rc))) := by
  intro fuel
  induction fuel with
  | zero => intro rc h6 h7; omega
  | succ fuel ih =>
    intro rc h6 h7
    by_cases hs : succeeds rc = true
    · left
      exact ⟨rc, le_refl rc, h6, hs,
        fun a ha hlt => absurd ha (not_le.mpr hlt),
        by simp [audioGenLoop, hs, Nat.sub_self, delaysFrom]⟩
    · have hf : succeeds rc = false := by simpa using hs
      by_cases h5 : rc > 5
      · have hrc : rc = 6 := by omega
        subst hrc
        right
        refine ⟨fun a ha1 ha2 => ?_, ?_⟩
        · have ha : a = 6 := by omega
          subst ha; exact hf
        · simp [audioGenLoop, hf, Nat.sub_self, delaysFrom]
      · rcases ih (rc + 1) (by omega) (by omega) with
          ⟨r, hr1, hr2, hsr, hfail, heq⟩ | ⟨hfail, heq⟩
        · left
          refine ⟨r, by omega, hr2, hsr, ?_, ?_⟩
          · intro a ha hlt
            rcases Nat.eq_or_lt_of_le ha with hEq | hGt
            · subst hEq; exact hf
            · exact hfail a (by omega) hlt
          · have hrr : r - rc = (r - (rc + 1)) + 1 := by omega
            simp only [audioGenLoop, hf, h5, heq, if_neg, Bool.false_eq_true,
              if_false, ite_false]
            rw [hrr]
            simp [delaysFrom]
        · right
          refine ⟨?_, ?_⟩
          · intro a ha1 ha2
            rcases Nat.eq_or_lt_of_le ha1 with hEq | hGt
            · subst hEq; exact hf
            · exact hfail a (by omega) ha2
          · have hrr : 6 - rc = (6 - (rc + 1)) + 1 := by omega
            simp only [audioGenLoop, hf, h5, heq, Bool.false_eq_true, if_false, ite_false]
            rw [hrr]
            simp [delaysFrom]

/-- C2: at most 6 retries ever happen for one job; retry number `k`
(`k = 1..6`) is preceded by a backoff of exactly `k + jitter k` seconds,
which lies in `[k + 1, k + 5]` since the jitter models
`random.randint(1, 5)`; and the loop raises the exhaustion error naming
the cue's file exactly when all 7 attempts fail. -/
theorem audio_gen_retry_policy (fname : List Char) (succeeds : Nat → Bool)
    (jitter : Nat → Nat) (hj : ∀ k, 1 ≤ jitter k ∧ jitter k ≤ 5) :
    (∀ r ds, audio_gen_retry fname succeeds jitter = .success r ds →
      r ≤ 6 ∧ ds = delaysFrom jitter 1 r ∧ ds.length = r ∧
      ∀ i, i < ds.length → ds.getD i 0 = (i + 1) + jitter (i + 1) ∧
        (i + 1) + 1 ≤ ds.getD i 0 ∧ ds.getD i 0 ≤ (i + 1) + 5)
  ∧ (∀ f ds, audio_gen_retry fname succeeds jitter = .exhausted f ds →
      f = fname ∧ ds.length = 6 ∧ (∀ a, a ≤ 6 → succeeds a = false) ∧
      ds = delaysFrom jitter 1 6)
  ∧ ((∀ a, a ≤ 6 → succeeds a = false) →
      audio_gen_retry fname succeeds jitter = .exhausted fname (delaysFrom jitter 1 6))
  ∧ audio_gen_retry fname succeeds jitter ≠ .fuelOut := by
  rcases audioGenLoop_spec fname succeeds jitter 8 0 (by omega) (by omega) with
    ⟨r, _, hr6, hsr, _, heq⟩ | ⟨hfail, heq⟩
  · have heq' : audio_gen_retry fname succeeds jitter = .success r (delaysFrom jitter 1 r) := by
      unfold audio_gen_retry
      rw [heq]
      norm_num
    refine ⟨?_, ?_, ?_, ?_⟩
    · intro r' ds h'
      rw [heq'] at h'
      simp only [SynthOutcome.success.injEq] at h'
      obtain ⟨rfl, rfl⟩ := h'
      refine ⟨hr6, rfl, delaysFrom_length jitter r 1, ?_⟩
      intro i hi
      rw [delaysFrom_length jitter r 1] at hi
      have hv := delaysFrom_getD jitter r 1 i hi
      have hcomm : 1 + i = i + 1 := by omega
      rw [hcomm] at hv
      rw [hv]
      have hjj := hj (i + 1)
      exact ⟨rfl, by omega, by omega⟩
    · intro f ds h'
      rw [heq'] at h'
      exact SynthOutcome.noConfusion h'
    · intro hall
      exact absurd hsr (by simp [hall r hr6])
    · rw [heq']
      exact fun h' => SynthOutcome.noConfusion h'
  · have heq' : audio_gen_retry fname succeeds jitter =
        .exhausted fname (delaysFrom jitter 1 6) := by
      unfold audio_gen_retry
      rw [heq]
    refine ⟨?_, ?_, ?_, ?_⟩
    · intro r' ds h'
      rw [heq'] at h'
      exact SynthOutcome.noConfusion h'
    · intro f ds h'
      rw [heq'] at h'
      simp only [SynthOutcome.exhausted.injEq] at h'
      obtain ⟨rfl, rfl⟩ := h'
      exact ⟨rfl, delaysFrom_length jitter 6 1, fun a ha => hfail a (by omega) ha, rfl⟩
    · intro _
      exact heq'
    · rw [heq']
      exact fun h' => SynthOutcome.noConfusion h'

/-- C2 witness: a job whose every attempt fails, with jitter constantly 3,
exhausts its retries with the six backoff delays `[4, 5, 6, 7, 8, 9]`. -/
theorem audio_gen_retry_policy_witness :
    (∀ k : Nat, 1 ≤ (fun _ : Nat => 3) k ∧ (fun _ : Nat => 3) k ≤ 5)
  ∧ ((∀ a : Nat, a ≤ 6 → (fun _ : Nat => false) a = false) →
      audio_gen_retry "0.mp3".toList (fun _ => false) (fun _ => 3) =
        .exhausted "0.mp3".toList (delaysFrom (fun _ => 3) 1 6))
  ∧ audio_gen_retry "0.mp3".toList (fun _ => false) (fun _ => 3) ≠ .fuelOut := by
  have hj : ∀ k : Nat, 1 ≤ (fun _ : Nat => 3) k ∧ (fun _ : Nat => 3) k ≤ 5 :=
    fun _ => ⟨by norm_num, by norm_num⟩
  have h := audio_gen_retry_policy "0.mp3".toList (fun _ => false) (fun _ => 3) hj
  exact ⟨hj, h.2.2.1, h.2.2.2⟩

/-- C4: for every input clip and target duration (nonzero, else the Python
division itself raises, cf. `zero_duration_division`), the tempo factor
computed as natural duration divided by target duration is clamped to
`[1/2, 100]`: values below `1/2` are replaced by `1/2`, values above `100`
by `100`, in-range values are kept, and any invoked transform uses exactly
the clamped factor. -/
theorem tempo_factor_clamped (duration length : ℚ) (h : length ≠ 0) :
    (1/2 ≤ clampAtempo (duration / length) ∧ clampAtempo (duration / length) ≤ 100)
  ∧ (duration / length < 1/2 → clampAtempo (duration / length) = 1/2)
  ∧ (100 < duration / length → clampAtempo (duration / length) = 100)
  ∧ (1/2 ≤ duration / length → duration / length ≤ 100 →
      clampAtempo (duration / length) = duration / length)
  ∧ (∀ f, ensure_audio_length duration length = .ok (.transform f) →
      f = clampAtempo (duration / length)) := by
  refine ⟨?_, ?_, ?_, ?_, ?_⟩
  · unfold clampAtempo; split_ifs <;> constructor <;> linarith
  · intro h1; unfold clampAtempo; rw [if_pos h1]
  · intro h2; unfold clampAtempo; rw [if_neg (by linarith), if_pos h2]
  · intro h1 h2; unfold clampAtempo; rw [if_neg (by linarith), if_neg (by linarith)]
  · intro f hf
    simp only [ensure_audio_length, if_neg h] at hf
    by_cases hgt : clampAtempo (duration / length) > 1 <;> simp [hgt] at hf
    exact hf.symm

/-- C4 witness: the clamping facts at natural duration `6`, target `3`. -/
theorem tempo_factor_clamped_witness :
    ((3 : ℚ) ≠ 0)
  ∧ ((1/2 ≤ clampAtempo ((6 : ℚ) / 3) ∧ clampAtempo ((6 : ℚ) / 3) ≤ 100)
    ∧ ((6 : ℚ) / 3 < 1/2 → clampAtempo ((6 : ℚ) / 3) = 1/2)
    ∧ (100 < (6 : ℚ) / 3 → clampAtempo ((6 : ℚ) / 3) = 100)
    ∧ (1/2 ≤ (6 : ℚ) / 3 → (6 : ℚ) / 3 ≤ 100 →
        clampAtempo ((6 : ℚ) / 3) = (6 : ℚ) / 3)
    ∧ (∀ f, ensure_audio_length 6 3 = .ok (.transform f) →
        f = clampAtempo ((6 : ℚ) / 3))) :=
  ⟨by norm_num, tempo_factor_clamped 6 3 (by norm_num)⟩

/-- C5: for a nonzero target duration, the reconciler copies the clip
through unchanged exactly when the clamped tempo factor is at most `1`,
and invokes the tempo transform exactly when the clamped factor exceeds
`1`. -/
theorem tempo_passthrough_iff (duration length : ℚ) (h : length ≠ 0) :
    (ensure_audio_length duration length = .ok .copyThrough ↔
      clampAtempo (duration / length) ≤ 1)
  ∧ (ensure_audio_length duration length = .ok (.transform (clampAtempo (duration / length))) ↔
      1 < clampAtempo (duration / length)) := by
  simp only [ensure_audio_length, if_neg h]
  by_cases hgt : clampAtempo (duration / length) > 1
  · rw [if_pos hgt]
    refine ⟨⟨fun hx => by simp at hx, fun hle => absurd hgt (not_lt.mpr hle)⟩, ?_⟩
    simp [hgt]
  · rw [if_neg hgt]
    refine ⟨by simp [le_of_not_lt hgt], ?_⟩
    exact ⟨fun hx => by simp at hx, fun hlt => absurd hlt hgt⟩

/-- C5 witness: a clip of natural duration `1` in a window of `2` has
clamped factor `1/2 ≤ 1` and is copied through. -/
theorem tempo_passthrough_iff_witness :
    ((2 : ℚ) ≠ 0)
  ∧ ((ensure_audio_length 1 2 = .ok .copyThrough ↔ clampAtempo ((1 : ℚ) / 2) ≤ 1)
    ∧ (ensure_audio_length 1 2 = .ok (.transform (clampAtempo ((1 : ℚ) / 2))) ↔
        1 < clampAtempo ((1 : ℚ) / 2))) :=
  ⟨by norm_num, tempo_passthrough_iff 1 2 (by norm_num)⟩

/-- C6: a synthesis result of zero audio bytes yields a silence clip of
exactly the cue's target duration, and the reconciliation path (duration
probe and possible tempo transform) is reached only when the byte count is
positive. -/
theorem zero_byte_silence (fileLength : Nat) (naturalDuration targetDuration : ℚ) :
    (finalizeClip fileLength naturalDuration targetDuration = .ok (.silence targetDuration) ↔
      fileLength = 0)
  ∧ (∀ act, finalizeClip fileLength naturalDuration targetDuration = .ok (.reconcile act) →
      0 < fileLength) := by
  rcases Nat.eq_zero_or_pos fileLength with h0 | hpos
  · subst h0; simp [finalizeClip]
  · constructor
    · simp only [finalizeClip, if_pos hpos]
      cases he : ensure_audio_length naturalDuration targetDuration <;>
        simp [he, Except.map, Nat.pos_iff_ne_zero.mp hpos]
    · intro _ _; exact hpos

/-- C6 witness: with zero bytes, natural duration `3` and target `2`, the
silence branch is taken. -/
theorem zero_byte_silence_witness :
    (finalizeClip 0 3 2 = .ok (.silence 2) ↔ (0 : Nat) = 0)
  ∧ (∀ act, finalizeClip 0 3 2 = .ok (.reconcile act) → 0 < 0) :=
  zero_byte_silence 0 3 2

/-- C10: a cue with `start = end` (a zero target duration, permitted by
the data model) whose synthesis produced a positive number of bytes makes
the reconciler divide the probed natural duration by zero, raising an
unhandled `ZeroDivisionError`. -/
theorem zero_duration_division (item : SubRipItem) (fileLength : Nat)
    (naturalDuration : ℚ)
    (hzero : pysrttime_to_seconds item.start = pysrttime_to_seconds item.stop)
    (hpos : 0 < fileLength) :
    finalizeClip fileLength naturalDuration (duration_seconds item) =
      .error .zeroDivisionError := by
  have hd : duration_seconds item = 0 := by
    unfold duration_seconds; rw [hzero]; ring
  simp [finalizeClip, hpos, hd, ensure_audio_length, Except.map]

/-- C10 witness: a concrete cue lasting from second 1 to second 1, with a
5-byte clip of natural duration 3. -/
theorem zero_duration_division_witness :
    pysrttime_to_seconds (SubRipItem.mk ⟨0, 0, 1, 0⟩ ⟨0, 0, 1, 0⟩ "hi".toList).start =
      pysrttime_to_seconds (SubRipItem.mk ⟨0, 0, 1, 0⟩ ⟨0, 0, 1, 0⟩ "hi".toList).stop
  ∧ 0 < 5
  ∧ finalizeClip 5 3 (duration_seconds (SubRipItem.mk ⟨0, 0, 1, 0⟩ ⟨0, 0, 1, 0⟩ "hi".toList)) =
      .error .zeroDivisionError := by
  refine ⟨rfl, by norm_num, ?_⟩
  exact zero_duration_division (SubRipItem.mk ⟨0, 0, 1, 0⟩ ⟨0, 0, 1, 0⟩ "hi".toList) 5 3 rfl
    (by norm_num)

/-- C9: when `--ssml-template` is not supplied, `main` never reaches the
`_main` call (no synthesis begins), and as soon as the batch-size check
passes the run dies with the unhandled `UnboundLocalError` (a `NameError`)
for the local `ssml_template`. -/
theorem ssml_template_unbound (templateContents : List Char) (batchSize : Int) :
    (∀ t, mainSetup none templateContents batchSize ≠ .ok t)
  ∧ (1 ≤ batchSize →
      mainSetup none templateContents batchSize = .error (.nameError "ssml_template".toList)) := by
  unfold mainSetup
  by_cases hb : batchSize < 1
  · simp only [if_pos hb, Option.map_none']
    exact ⟨fun t h => Except.noConfusion h, fun h1 => absurd hb (by omega)⟩
  · simp only [if_neg hb, Option.map_none']
    exact ⟨fun t h => Except.noConfusion h, fun _ => trivial⟩

/-- C9 witness: a run with the default batch size 50 and no template
option fails with the `NameError`. -/
theorem ssml_template_unbound_witness :
    (∀ t, mainSetup none "contents".toList 50 ≠ .ok t)
  ∧ ((1 : Int) ≤ 50 →
      mainSetup none "contents".toList 50 = .error (.nameError "ssml_template".toList)) :=
  ssml_template_unbound "contents".toList 50

/-- C8 counterexample: the claim says loading fails with a timeline error
when some cue has `start > end`; the code performs no validation, accepts
the reversed cue and computes the total duration from it. -/
theorem load_accepts_reversed_cue :
    loadTimeline [badCue] = .ok [badCue]
  ∧ pysrttime_to_seconds badCue.stop < pysrttime_to_seconds badCue.start
  ∧ maxDurationOf [badCue] = .ok (pysrttime_to_seconds badCue.stop) := by
  refine ⟨rfl, ?_, rfl⟩
  norm_num [badCue, pysrttime_to_seconds]

/-- C8 amended: loading never validates and never fails, whatever the
cues; for an empty sequence the failure (an unhandled `IndexError`, not a
timeline-validation error) happens only when `srt_data[-1].end` is read;
for a nonempty sequence the total required duration is the last cue's end
in seconds. -/
theorem load_no_validation (subs : List SubRipItem) :
    loadTimeline subs = .ok subs
  ∧ (subs = [] → maxDurationOf subs = .error .indexError)
  ∧ ∀ h : subs ≠ [], maxDurationOf subs = .ok (pysrttime_to_seconds (subs.getLast h).stop) := by
  refine ⟨rfl, ?_, ?_⟩
  · rintro rfl; rfl
  · intro h
    unfold maxDurationOf
    rw [List.getLast?_eq_getLast_of_ne_nil h]

/-- C8 amended witness: on the (invalid by the claim's lights) singleton
`[badCue]`, loading succeeds and the total duration is `badCue`'s end. -/
theorem load_no_validation_witness :
    loadTimeline [badCue] = .ok [badCue]
  ∧ maxDurationOf [badCue] =
      .ok (pysrttime_to_seconds (([badCue].getLast (List.cons_ne_nil badCue [])).stop)) :=
  ⟨(load_no_validation [badCue]).1,
    (load_no_validation [badCue]).2.2 (List.cons_ne_nil badCue [])⟩

/-! Helper lemmas about the Python string primitives. -/

theorem pySplit_ne_nil (sep : Char) : ∀ l : List Char, pySplit sep l ≠ [] := by
  intro l
  induction l with
  | nil => simp [pySplit]
  | cons c cs ih =>
    by_cases h : c = sep
    · simp [pySplit, h]
    · simp only [pySplit, if_neg h]
      cases hps : pySplit sep cs with
      | nil => simp
      | cons p ps => simp

theorem mem_pySplit (sep : Char) :
    ∀ (l : List Char) (p : List Char), p ∈ pySplit sep l → sep ∉ p := by
  intro l
  induction l with
  | nil =>
    intro p hp
    simp only [pySplit, List.mem_singleton] at hp
    subst hp
    simp
  | cons c cs ih =>
    intro p hp
    by_cases h : c = sep
    · simp only [pySplit, if_pos h, List.mem_cons] at hp
      rcases hp with rfl | hp
      · simp
      · exact ih p hp
    · simp only [pySplit, if_neg h] at hp
      cases hps : pySplit sep cs with
      | nil => exact absurd hps (pySplit_ne_nil sep cs)
      | cons q qs =>
        rw [hps] at hp
        simp only [List.mem_cons] at hp
        rcases hp with rfl | hp
        · intro hmem
          simp only [List.mem_cons] at hmem
          rcases hmem with rfl | hmem
          · exact h rfl
          · exact ih q (by rw [hps]; exact List.mem_cons_self q qs) hmem
        · exact ih p (by rw [hps]; exact List.mem_cons_of_mem q hp)

theorem pySplit_no_sep (sep : Char) :
    ∀ l : List Char, sep ∉ l → pySplit sep l = [l] := by
  intro l
  induction l with
  | nil => intro _; rfl
  | cons c cs ih =>
    intro hmem
    have hc : ¬c = sep := fun hEq => hmem (by rw [hEq]; exact List.mem_cons_self sep cs)
    have hcs : sep ∉ cs := fun hin => hmem (List.mem_cons_of_mem c hin)
    simp only [pySplit, if_neg hc, ih hcs]

theorem pyJoin_no_char (c sep : Char) (hc : c ≠ sep) :
    ∀ parts : List (List Char), (∀ p ∈ parts, c ∉ p) → c ∉ pyJoin sep parts := by
  intro parts
  induction parts with
  | nil => intro _; simp [pyJoin]
  | cons p rest ih =>
    intro hall
    cases rest with
    | nil => exact hall p (List.mem_cons_self p [])
    | cons q rest' =>
      intro hmem
      simp only [pyJoin, List.mem_append, List.mem_cons] at hmem
      rcases hmem with hp | rfl | htail
      · exact hall p (List.mem_cons_self p _) hp
      · exact hc rfl
      · exact ih (fun r hr => hall r (List.mem_cons_of_mem p hr)) htail

theorem pyJoin_single (sep : Char) (l : List Char) : pyJoin sep [l] = l := rfl

/-! Helper lemmas about the Python dict model. -/

theorem pyDictGet_insert_self :
    ∀ (d : List (List Char × List Char)) (k v : List Char),
      pyDictGet (pyDictInsert d k v) k = some v := by
  intro d
  induction d with
  | nil => intro k v; simp [pyDictInsert, pyDictGet]
  | cons p rest ih =>
    intro k v
    by_cases hp : p.1 = k
    · simp [pyDictInsert, hp, pyDictGet]
    · simp [pyDictInsert, hp, pyDictGet, ih]

theorem pyDictGet_insert_ne :
    ∀ (d : List (List Char × List Char)) (k v k' : List Char), k ≠ k' →
      pyDictGet (pyDictInsert d k v) k' = pyDictGet d k' := by
  intro d
  induction d with
  | nil => intro k v k' hne; simp [pyDictInsert, pyDictGet, hne]
  | cons p rest ih =>
    intro k v k' hne
    by_cases hp : p.1 = k
    · simp only [pyDictInsert]
      rw [if_pos hp]
      simp only [pyDictGet]
      rw [hp]
      simp [hne]
    · simp only [pyDictInsert]
      rw [if_neg hp]
      simp only [pyDictGet]
      rw [ih k v k' hne]

/-- Membership in the keys of a dict model after an insertion. -/
theorem mem_keys_pyDictInsert :
    ∀ (d : List (List Char × List Char)) (k v k' : List Char),
      k' ∈ (pyDictInsert d k v).map Prod.fst ↔ k' = k ∨ k' ∈ d.map Prod.fst := by
  intro d
  induction d with
  | nil => intro k v k'; simp [pyDictInsert]
  | cons p rest ih =>
    intro k v k'
    by_cases hp : p.1 = k
    · simp only [pyDictInsert]
      rw [if_pos hp]
      simp only [List.map_cons, List.mem_cons, hp]
      tauto
    · simp only [pyDictInsert]
      rw [if_neg hp]
      simp only [List.map_cons, List.mem_cons, ih k v k']
      tauto

theorem nodup_keys_pyDictInsert :
    ∀ (d : List (List Char × List Char)) (k v : List Char),
      (d.map Prod.fst).Nodup → ((pyDictInsert d k v).map Prod.fst).Nodup := by
  intro d
  induction d with
  | nil => intro k v _; simp [pyDictInsert]
  | cons p rest ih =>
    intro k v hnd
    simp only [List.map_cons, List.nodup_cons] at hnd
    by_cases hp : p.1 = k
    · simp only [pyDictInsert]
      rw [if_pos hp]
      simp only [List.map_cons, List.nodup_cons]
      refine ⟨?_, hnd.2⟩
      rw [← hp]
      exact hnd.1
    · simp only [pyDictInsert]
      rw [if_neg hp]
      simp only [List.map_cons, List.nodup_cons, mem_keys_pyDictInsert]
      refine ⟨?_, ih k v hnd.2⟩
      intro hmem
      rcases hmem with hEq | hmem
      · exact hp hEq
      · exact hnd.1 hmem

theorem nodup_keys_foldl_insert :
    ∀ (pairs : List (List Char × List Char)) (d : List (List Char × List Char)),
      (d.map Prod.fst).Nodup →
      ((pairs.foldl (fun a p => pyDictInsert a p.1 p.2) d).map Prod.fst).Nodup := by
  intro pairs
  induction pairs with
  | nil => intro d hd; simpa using hd
  | cons p rest ih =>
    intro d hd
    simp only [List.foldl_cons]
    exact ih (pyDictInsert d p.1 p.2) (nodup_keys_pyDictInsert d p.1 p.2 hd)

theorem nodup_keys_pyDictOfPairs (pairs : List (List Char × List Char)) :
    ((pyDictOfPairs pairs).map Prod.fst).Nodup :=
  nodup_keys_foldl_insert pairs [] (by simp)

theorem pyDictGet_foldl_not_mem :
    ∀ (d : List (List Char × List Char)) (arg : List (List Char × List Char))
      (k : List Char), k ∉ d.map Prod.fst →
      pyDictGet (d.foldl (fun a p => pyDictInsert a p.1 p.2) arg) k = pyDictGet arg k := by
  intro d
  induction d with
  | nil => intro arg k _; rfl
  | cons p rest ih =>
    intro arg k hk
    simp only [List.map_cons, List.mem_cons, not_or] at hk
    simp only [List.foldl_cons]
    rw [ih (pyDictInsert arg p.1 p.2) k hk.2,
      pyDictGet_insert_ne arg p.1 p.2 k (fun hEq => hk.1 hEq.symm)]

theorem pyDictGet_applyDirective :
    ∀ (d : List (List Char × List Char)), (d.map Prod.fst).Nodup →
      ∀ (arg : List (List Char × List Char)) (k v : List Char),
        pyDictGet d k = some v → pyDictGet (applyDirective arg d) k = some v := by
  intro d
  induction d with
  | nil => intro _ arg k v h; simp [pyDictGet] at h
  | cons p rest ih =>
    intro hnd arg k v hget
    simp only [List.map_cons, List.nodup_cons] at hnd
    simp only [applyDirective, List.foldl_cons]
    by_cases hp : p.1 = k
    · simp only [pyDictGet, if_pos hp] at hget
      obtain rfl := Option.some.inj hget
      rw [pyDictGet_foldl_not_mem rest (pyDictInsert arg p.1 p.2) k
        (by rw [← hp]; exact hnd.1)]
      rw [← hp]
      exact pyDictGet_insert_self arg p.1 p.2
    · simp only [pyDictGet, if_neg hp] at hget
      exact ih hnd.2 (pyDictInsert arg p.1 p.2) k v hget

/-- C3 counterexample: with an ssml template whose variables include
`lang`, the directive key `lang` lies outside the claim's fixed set
{rate, pitch, volume, voice}, yet no error is raised: the override is
applied and the directive line stripped. -/
theorem directive_ssml_variable_key_accepted :
    processCueText true ["lang".toList] [] "Hi\nedge_tts\x7blang:en\x7d".toList =
      .ok [("lang".toList, "en".toList)] "Hi".toList
  ∧ "lang".toList ∉ allowedKeys := by
  refine ⟨by decide, by decide⟩

/-- C3 amended: for a cue whose final line is a well-formed directive
block, the keys are validated against the union of the fixed set
{rate, pitch, volume, voice} and the run's ssml template variables: the
job dies with the invalid-directive error exactly when some key lies
outside that union; when all keys lie in it, the overrides are applied to
the job's parameters (each directive key now maps to its directive value)
and the directive line is stripped before the line-break collapse. -/
theorem directive_key_validation (ssmlVariables : List (List Char))
    (arg : List (List Char × List Char)) (text : List Char)
    (pairs : List (List Char × List Char))
    (hpre : edgeTag.isPrefixOf ((pySplit nlChar text).getLastD []) = true)
    (hsuf : closeBrace.isSuffixOf ((pySplit nlChar text).getLastD []) = true)
    (hpairs : parsePairs (pySplit ','
        ((((pySplit nlChar text).getLastD []).drop edgeTag.length).dropLast)) = some pairs) :
    (processCueText true ssmlVariables arg text = .fatal ↔
      ∃ p ∈ pyDictOfPairs pairs, p.1 ∉ allowedKeys ++ ssmlVariables)
  ∧ ((∀ p ∈ pyDictOfPairs pairs, p.1 ∈ allowedKeys ++ ssmlVariables) →
      processCueText true ssmlVariables arg text =
        .ok (applyDirective arg (pyDictOfPairs pairs))
          (pyJoin spChar (pySplit nlChar (pyJoin nlChar ((pySplit nlChar text).dropLast)))))
  ∧ (∀ k v, pyDictGet (pyDictOfPairs pairs) k = some v →
      pyDictGet (applyDirective arg (pyDictOfPairs pairs)) k = some v) := by
  have hstep : directiveStep ssmlVariables arg text =
      (if (pyDictOfPairs pairs).all
          (fun p => decide (p.1 ∈ allowedKeys ++ ssmlVariables)) then
        some (applyDirective arg (pyDictOfPairs pairs),
          pyJoin nlChar ((pySplit nlChar text).dropLast))
      else none) := by
    unfold directiveStep
    simp only [hpre, hsuf, hpairs, Bool.and_self, if_true]
  have hproc : processCueText true ssmlVariables arg text =
      (if (pyDictOfPairs pairs).all
          (fun p => decide (p.1 ∈ allowedKeys ++ ssmlVariables)) then
        .ok (applyDirective arg (pyDictOfPairs pairs))
          (pyJoin spChar (pySplit nlChar (pyJoin nlChar ((pySplit nlChar text).dropLast))))
      else .fatal) := by
    unfold processCueText
    rw [if_pos rfl, hstep]
    by_cases hall : (pyDictOfPairs pairs).all
        (fun p => decide (p.1 ∈ allowedKeys ++ ssmlVariables)) = true
    · rw [if_pos hall, if_pos hall]
    · rw [if_neg hall, if_neg hall]
  refine ⟨?_, ?_, ?_⟩
  · rw [hproc]
    by_cases hall : (pyDictOfPairs pairs).all
        (fun p => decide (p.1 ∈ allowedKeys ++ ssmlVariables)) = true
    · rw [if_pos hall]
      simp only [List.all_eq_true, decide_eq_true_eq] at hall
      constructor
      · intro h'; exact absurd h' (by simp)
      · rintro ⟨p, hp, hnp⟩; exact absurd (hall p hp) hnp
    · rw [if_neg hall]
      simp only [List.all_eq_true, decide_eq_true_eq, not_forall] at hall
      constructor
      · intro _
        obtain ⟨p, hp, hnp⟩ := hall
        exact ⟨p, hp, hnp⟩
      · intro _; rfl
  · intro hforall
    rw [hproc, if_pos]
    simp only [List.all_eq_true, decide_eq_true_eq]
    exact hforall
  · intro k v hget
    exact pyDictGet_applyDirective (pyDictOfPairs pairs) (nodup_keys_pyDictOfPairs pairs)
      arg k v hget

/-- C3 amended witness: the well-formed single-line directive
`edge_tts\x7brate:+10%\x7d` with allowed key `rate` overrides the default
rate and leaves an empty spoken text. -/
theorem directive_key_validation_witness :
    processCueText true [] [("rate".toList, "+0%".toList)]
        "Hi\nedge_tts\x7brate:+10%\x7d".toList =
      .ok (applyDirective [("rate".toList, "+0%".toList)]
            (pyDictOfPairs [("rate".toList, "+10%".toList)]))
        (pyJoin spChar (pySplit nlChar (pyJoin nlChar
          ((pySplit nlChar "Hi\nedge_tts\x7brate:+10%\x7d".toList).dropLast)))) :=
  (directive_key_validation [] [("rate".toList, "+0%".toList)]
      "Hi\nedge_tts\x7brate:+10%\x7d".toList [("rate".toList, "+10%".toList)]
      (by decide) (by decide) (by decide)).2.1 (by decide)

/-- C7 counterexample: for the cue text
`edge_tts\x7ba\x7d` + newline + `edge_tts\x7brate:+0%\x7d` the parser
strips the valid final directive, producing the clean text
`edge_tts\x7ba\x7d`; that clean text matches the directive pattern again,
and re-parsing it changes the text to the empty string. -/
theorem clean_text_rematch :
    processCueText true [] [] "edge_tts\x7ba\x7d\nedge_tts\x7brate:+0%\x7d".toList =
      .ok [("rate".toList, "+0%".toList)] "edge_tts\x7ba\x7d".toList
  ∧ directiveMatch "edge_tts\x7ba\x7d".toList = true
  ∧ processCueText true [] [] "edge_tts\x7ba\x7d".toList = .ok [] [] := by
  refine ⟨by decide, by decide, by decide⟩

/-- C7 amended: the clean text produced by the parser contains no line
break, so re-parsing it finds a directive match exactly when the clean
text itself starts with the reserved prefix and ends with the closing
delimiter; whenever there is no such match, re-parsing (with any
configuration) leaves the clean text unchanged. -/
theorem directive_reparse_stable (enhancedSrt : Bool) (ssmlVariables : List (List Char))
    (arg arg2 : List (List Char × List Char)) (text clean : List Char)
    (h : processCueText enhancedSrt ssmlVariables arg text = .ok arg2 clean) :
    (directiveMatch clean =
      (edgeTag.isPrefixOf clean && closeBrace.isSuffixOf clean))
  ∧ (directiveMatch clean = false →
      ∀ (e2 : Bool) (vars2 : List (List Char)) (arg3 : List (List Char × List Char)),
        processCueText e2 vars2 arg3 clean = .ok arg3 clean) := by
  have hshape : ∃ t : List Char, clean = pyJoin spChar (pySplit nlChar t) := by
    unfold processCueText at h
    cases hm : (if enhancedSrt then directiveStep ssmlVariables arg text
        else some (arg, text)) with
    | none => rw [hm] at h; exact absurd h (by simp)
    | some pr =>
      rw [hm] at h
      simp only [ProcessResult.ok.injEq] at h
      exact ⟨pr.2, h.2.symm⟩
  obtain ⟨t, rfl⟩ := hshape
  have hnl : nlChar ∉ pyJoin spChar (pySplit nlChar t) :=
    pyJoin_no_char nlChar spChar (by decide) (pySplit nlChar t)
      (fun p hp => mem_pySplit nlChar t p hp)
  have hsingle : pySplit nlChar (pyJoin spChar (pySplit nlChar t)) =
      [pyJoin spChar (pySplit nlChar t)] := pySplit_no_sep nlChar _ hnl
  have hmatch : directiveMatch (pyJoin spChar (pySplit nlChar t)) =
      (edgeTag.isPrefixOf (pyJoin spChar (pySplit nlChar t)) &&
        closeBrace.isSuffixOf (pyJoin spChar (pySplit nlChar t))) := by
    unfold directiveMatch
    rw [hsingle]
    rfl
  refine ⟨hmatch, ?_⟩
  intro hfalse e2 vars2 arg3
  have hcond : (edgeTag.isPrefixOf (pyJoin spChar (pySplit nlChar t)) &&
      closeBrace.isSuffixOf (pyJoin spChar (pySplit nlChar t))) = false := by
    rw [← hmatch]; exact hfalse
  have hlastD : (pySplit nlChar (pyJoin spChar (pySplit nlChar t))).getLastD [] =
      pyJoin spChar (pySplit nlChar t) := by
    rw [hsingle]
    rfl
  have hstep2 : directiveStep vars2 arg3 (pyJoin spChar (pySplit nlChar t)) =
      some (arg3, pyJoin spChar (pySplit nlChar t)) := by
    unfold directiveStep
    simp only [hlastD]
    rw [hcond]
    simp
  cases e2 with
  | false =>
    unfold processCueText
    rw [if_neg (by simp)]
    show ProcessResult.ok arg3
        (pyJoin spChar (pySplit nlChar (pyJoin spChar (pySplit nlChar t)))) =
      ProcessResult.ok arg3 (pyJoin spChar (pySplit nlChar t))
    rw [hsingle, pyJoin_single]
  | true =>
    unfold processCueText
    rw [if_pos rfl, hstep2]
    show ProcessResult.ok arg3
        (pyJoin spChar (pySplit nlChar (pyJoin spChar (pySplit nlChar t)))) =
      ProcessResult.ok arg3 (pyJoin spChar (pySplit nlChar t))
    rw [hsingle, pyJoin_single]

/-- C7 amended witness: the plain two-line text `A` newline `B` collapses
to `A B`, which contains no directive and re-parses to itself. -/
theorem directive_reparse_stable_witness :
    (directiveMatch "A B".toList =
      (edgeTag.isPrefixOf "A B".toList && closeBrace.isSuffixOf "A B".toList))
  ∧ (directiveMatch "A B".toList = false →
      ∀ (e2 : Bool) (vars2 : List (List Char)) (arg3 : List (List Char × List Char)),
        processCueText e2 vars2 arg3 "A B".toList = .ok arg3 "A B".toList) :=
  directive_reparse_stable true [] [] [] "A\nB".toList "A B".toList (by decide)

/-! Helper lemmas about the gap-filling loop. -/

theorem getLastD_cons_cons (a b : (ℚ × ℚ) × ℚ) (l : List ((ℚ × ℚ) × ℚ))
    (dflt : (ℚ × ℚ) × ℚ) :
    (a :: b :: l).getLastD dflt = (b :: l).getLastD dflt := by
  rw [List.getLastD_cons, List.getLastD_cons, List.getLastD_cons]

theorem gapLoop_cons_fst (s e d : ℚ) (rest : List ((ℚ × ℚ) × ℚ)) (lastEnd : ℚ) :
    (gapLoop (((s, e), d) :: rest) lastEnd).1 =
      if s - lastEnd > tol then
        ClipRef.silence (s - lastEnd) :: ClipRef.speech d :: (gapLoop rest (s + d)).1
      else ClipRef.speech d :: (gapLoop rest (lastEnd + d)).1 := by
  by_cases hn : s - lastEnd > tol <;> simp [gapLoop, hn]

theorem gapLoop_cons_snd (s e d : ℚ) (rest : List ((ℚ × ℚ) × ℚ)) (lastEnd : ℚ) :
    (gapLoop (((s, e), d) :: rest) lastEnd).2 =
      if s - lastEnd > tol then (gapLoop rest (s + d)).2
      else (gapLoop rest (lastEnd + d)).2 := by
  by_cases hn : s - lastEnd > tol <;> simp [gapLoop, hn]

/-- The manifest entries emitted by the loop sum exactly to the clock's
advance. -/
theorem planDuration_gapLoop :
    ∀ (items : List ((ℚ × ℚ) × ℚ)) (lastEnd : ℚ),
      planDuration (gapLoop items lastEnd).1 = (gapLoop items lastEnd).2 - lastEnd := by
  intro items
  induction items with
  | nil => intro lastEnd; simp [gapLoop, planDuration]
  | cons item rest ih =>
    intro lastEnd
    obtain ⟨⟨s, e⟩, d⟩ := item
    rw [planDuration, gapLoop_cons_fst, gapLoop_cons_snd]
    by_cases hn : s - lastEnd > tol
    · rw [if_pos hn, if_pos hn]
      simp only [List.map_cons, List.sum_cons, ClipRef.dur]
      have hrec := ih (s + d)
      rw [planDuration] at hrec
      rw [hrec]
      ring
    · rw [if_neg hn, if_neg hn]
      simp only [List.map_cons, List.sum_cons, ClipRef.dur]
      have hrec := ih (lastEnd + d)
      rw [planDuration] at hrec
      rw [hrec]
      ring

/-- When cues are ordered, non-overlapping and each clip fits its window,
the final clock lands within `tol` below `start + dur` of the last item,
and that quantity is at most the last cue's end. -/
theorem gapLoop_clock_bounds :
    ∀ (items : List ((ℚ × ℚ) × ℚ)) (lb lastEnd : ℚ),
      sortedFit lb items = true → lastEnd ≤ lb → items ≠ [] →
      (items.getLastD ((0, 0), 0)).1.1 + (items.getLastD ((0, 0), 0)).2 - tol ≤
          (gapLoop items lastEnd).2
      ∧ (gapLoop items lastEnd).2 ≤
          (items.getLastD ((0, 0), 0)).1.1 + (items.getLastD ((0, 0), 0)).2
      ∧ (items.getLastD ((0, 0), 0)).1.1 + (items.getLastD ((0, 0), 0)).2 ≤
          (items.getLastD ((0, 0), 0)).1.2 := by
  intro items
  induction items with
  | nil => intro lb lastEnd _ _ hne; exact absurd rfl hne
  | cons item rest ih =>
    intro lb lastEnd hfit hle _
    obtain ⟨⟨s, e⟩, d⟩ := item
    simp only [sortedFit, Bool.and_eq_true, decide_eq_true_eq] at hfit
    obtain ⟨⟨⟨⟨hlbs, hse⟩, hd0⟩, hsd⟩, hrest⟩ := hfit
    have htolpos : (0 : ℚ) < tol := by norm_num [tol]
    cases rest with
    | nil =>
      have hgl : ([((s, e), d)].getLastD (((0 : ℚ), (0 : ℚ)), (0 : ℚ))) = ((s, e), d) := rfl
      rw [hgl]
      by_cases hn : s - lastEnd > tol
      · have hclock : (gapLoop [((s, e), d)] lastEnd).2 = s + d := by
          rw [gapLoop_cons_snd, if_pos hn]
          rfl
        rw [hclock]
        exact ⟨by linarith, by linarith, by linarith⟩
      · have hclock : (gapLoop [((s, e), d)] lastEnd).2 = lastEnd + d := by
          rw [gapLoop_cons_snd, if_neg hn]
          rfl
        rw [hclock]
        have hls : lastEnd ≤ s := le_trans hle hlbs
        push_neg at hn
        exact ⟨by linarith, by linarith, by linarith⟩
    | cons y rest' =>
      have hne' : (y :: rest') ≠ [] := List.cons_ne_nil y rest'
      rw [getLastD_cons_cons]
      by_cases hn : s - lastEnd > tol
      · have hnext := ih e (s + d) hrest hsd hne'
        have hclock : (gapLoop (((s, e), d) :: y :: rest') lastEnd).2 =
            (gapLoop (y :: rest') (s + d)).2 := by
          rw [gapLoop_cons_snd, if_pos hn]
        rw [hclock]
        exact hnext
      · have hls : lastEnd ≤ s := le_trans hle hlbs
        have hnext := ih e (lastEnd + d) hrest (by linarith) hne'
        have hclock : (gapLoop (((s, e), d) :: y :: rest') lastEnd).2 =
            (gapLoop (y :: rest') (lastEnd + d)).2 := by
          rw [gapLoop_cons_snd, if_neg hn]
        rw [hclock]
        exact hnext

/-- The loop's manifest always ends with the last cue's speech clip. -/
theorem gapLoop_getLast_speech :
    ∀ (items : List ((ℚ × ℚ) × ℚ)) (lastEnd : ℚ), items ≠ [] →
      (gapLoop items lastEnd).1.getLast? =
        some (ClipRef.speech ((items.getLastD ((0, 0), 0)).2)) := by
  intro items
  induction items with
  | nil => intro _ h; exact absurd rfl h
  | cons item rest ih =>
    intro lastEnd _
    obtain ⟨⟨s, e⟩, d⟩ := item
    rw [gapLoop_cons_fst]
    cases rest with
    | nil =>
      by_cases hn : s - lastEnd > tol
      · rw [if_pos hn]
        rfl
      · rw [if_neg hn]
        rfl
    | cons y rest' =>
      have hne' : (y :: rest') ≠ [] := List.cons_ne_nil y rest'
      rw [getLastD_cons_cons]
      by_cases hn : s - lastEnd > tol
      · have htail := ih (s + d) hne'
        rw [if_pos hn]
        cases hplan : (gapLoop (y :: rest') (s + d)).1 with
        | nil => rw [hplan] at htail; exact absurd htail (by simp)
        | cons q qs =>
          rw [hplan] at htail
          rw [List.getLast?_cons_cons, List.getLast?_cons_cons]
          exact htail
      · have htail := ih (lastEnd + d) hne'
        rw [if_neg hn]
        cases hplan : (gapLoop (y :: rest') (lastEnd + d)).1 with
        | nil => rw [hplan] at htail; exact absurd htail (by simp)
        | cons q qs =>
          rw [hplan] at htail
          rw [List.getLast?_cons_cons]
          exact htail

theorem planDuration_append_silence (plan : List ClipRef) (d : ℚ) :
    planDuration (plan ++ [ClipRef.silence d]) = planDuration plan + d := by
  simp [planDuration, ClipRef.dur]

/-- C1 counterexample: two cues `(0, 2)` and `(5, 7)` with measured clip
durations `4.99995` s and `2` s.  The `0.00005` s gap before the second
cue lies below the `0.0001` s tolerance and is skipped, so the final clock
is `6.99995 < 7`; the claim demands a trailing silence clip (the last end
minus the clock is positive), but the code compares `7` against
`start_of_last + last_clip = 5 + 2` and appends nothing, so the code's
walk and the claim's walk disagree. -/
theorem assemble_trailing_diverges :
    ((7 : ℚ) - (gapLoop [(((0 : ℚ), (2 : ℚ)), (99999/20000 : ℚ)), ((5, 7), 2)] 0).2 > 0)
  ∧ hasTrailingSilence (assemble [(((0 : ℚ), (2 : ℚ)), (99999/20000 : ℚ)), ((5, 7), 2)]) = false
  ∧ assemble [(((0 : ℚ), (2 : ℚ)), (99999/20000 : ℚ)), ((5, 7), 2)] ≠
      assembleSpec [(((0 : ℚ), (2 : ℚ)), (99999/20000 : ℚ)), ((5, 7), 2)] := by
  have h1 : gapLoop [(((0 : ℚ), (2 : ℚ)), (99999/20000 : ℚ)), ((5, 7), 2)] 0 =
      ([ClipRef.speech (99999/20000), ClipRef.speech 2], 139999/20000) := by
    norm_num [gapLoop, tol]
  have h2 : assemble [(((0 : ℚ), (2 : ℚ)), (99999/20000 : ℚ)), ((5, 7), 2)] =
      [ClipRef.speech (99999/20000), ClipRef.speech 2] := by
    norm_num [assemble, h1, List.getLastD_cons, List.getLastD_nil]
  have h3 : assembleSpec [(((0 : ℚ), (2 : ℚ)), (99999/20000 : ℚ)), ((5, 7), 2)] =
      [ClipRef.speech (99999/20000), ClipRef.speech 2, ClipRef.silence (1/20000)] := by
    norm_num [assembleSpec, h1, List.getLastD_cons, List.getLastD_nil]
  refine ⟨?_, ?_, ?_⟩
  · rw [h1]
    norm_num
  · rw [h2]
    rfl
  · rw [h2, h3]
    intro hEq
    simp at hEq

/-- C1 amended: silence is inserted before cue `i` exactly when
`start i - clock > 0.0001` (the loop of `gapLoop`, as claimed); the
trailing silence clip is appended when
`end_last - (start_last + measured_last_clip_duration)` is positive (not
when `end_last - clock` is positive); and, provided cues are ordered
without overlap and every finalized clip fits its cue window, the
assembled track's total duration lies within the `0.0001` tolerance below
the last cue's end. -/
theorem assemble_duration_bounds (items : List ((ℚ × ℚ) × ℚ))
    (hfit : sortedFit 0 items = true) (hne : items ≠ []) :
    ((items.getLastD ((0, 0), 0)).1.2 - tol ≤ planDuration (assemble items)
      ∧ planDuration (assemble items) ≤ (items.getLastD ((0, 0), 0)).1.2)
  ∧ (hasTrailingSilence (assemble items) = true ↔
      (items.getLastD ((0, 0), 0)).1.2 -
        ((items.getLastD ((0, 0), 0)).1.1 + (items.getLastD ((0, 0), 0)).2) > 0) := by
  obtain ⟨hlow, hhigh, hfitlast⟩ := gapLoop_clock_bounds items 0 0 hfit (le_refl 0) hne
  have hplansum := planDuration_gapLoop items 0
  have hlast := gapLoop_getLast_speech items 0 hne
  by_cases hneed : (items.getLastD ((0, 0), 0)).1.2 -
      ((items.getLastD ((0, 0), 0)).1.1 + (items.getLastD ((0, 0), 0)).2) > 0
  · have hassemble : assemble items =
        (gapLoop items 0).1 ++ [ClipRef.silence ((items.getLastD ((0, 0), 0)).1.2 -
          ((items.getLastD ((0, 0), 0)).1.1 + (items.getLastD ((0, 0), 0)).2))] := by
      simp only [assemble]
      rw [if_pos hneed]
    constructor
    · rw [hassemble, planDuration_append_silence, hplansum]
      exact ⟨by linarith, by linarith⟩
    · rw [hassemble]
      constructor
      · intro _
        exact hneed
      · intro _
        unfold hasTrailingSilence
        rw [List.getLast?_append_of_ne_nil _ (by simp)]
        rfl
  · have hassemble : assemble items = (gapLoop items 0).1 := by
      simp only [assemble]
      rw [if_neg hneed]
    push_neg at hneed
    rw [hassemble]
    refine ⟨⟨?_, ?_⟩, ?_⟩
    · rw [hplansum]
      linarith
    · rw [hplansum]
      linarith
    · constructor
      · intro htr
        unfold hasTrailingSilence at htr
        rw [hlast] at htr
        simp at htr
      · intro hpos
        exact absurd hpos (not_lt.mpr hneed)

/-- C1 amended witness: cues `(0, 2)` and `(5, 7)` with exactly fitting
clips of 2 s each assemble to a 7 s track with no trailing silence. -/
theorem assemble_duration_bounds_witness :
    sortedFit 0 [(((0 : ℚ), (2 : ℚ)), (2 : ℚ)), ((5, 7), 2)] = true
  ∧ ((([(((0 : ℚ), (2 : ℚ)), (2 : ℚ)), ((5, 7), 2)].getLastD ((0, 0), 0)).1.2 - tol ≤
        planDuration (assemble [(((0 : ℚ), (2 : ℚ)), (2 : ℚ)), ((5, 7), 2)])
      ∧ planDuration (assemble [(((0 : ℚ), (2 : ℚ)), (2 : ℚ)), ((5, 7), 2)]) ≤
        ([(((0 : ℚ), (2 : ℚ)), (2 : ℚ)), ((5, 7), 2)].getLastD ((0, 0), 0)).1.2)
    ∧ (hasTrailingSilence (assemble [(((0 : ℚ), (2 : ℚ)), (2 : ℚ)), ((5, 7), 2)]) = true ↔
        ([(((0 : ℚ), (2 : ℚ)), (2 : ℚ)), ((5, 7), 2)].getLastD ((0, 0), 0)).1.2 -
          (([(((0 : ℚ), (2 : ℚ)), (2 : ℚ)), ((5, 7), 2)].getLastD ((0, 0), 0)).1.1 +
            ([(((0 : ℚ), (2 : ℚ)), (2 : ℚ)), ((5, 7), 2)].getLastD ((0, 0), 0)).2) > 0)) := by
  have hfit : sortedFit 0 [(((0 : ℚ), (2 : ℚ)), (2 : ℚ)), ((5, 7), 2)] = true := by
    simp only [sortedFit, Bool.and_eq_true, decide_eq_true_eq]
    norm_num
  exact ⟨hfit, assemble_duration_bounds [(((0 : ℚ), (2 : ℚ)), (2 : ℚ)), ((5, 7), 2)] hfit
    (List.cons_ne_nil _ _)⟩

end EdgeSrt
